import Mathlib

set_option linter.unusedVariables false

/-!
Verification of the wrap-around buffer, buffer pool, stream-connector and
flow-control core of this haproxy snapshot.

The buffer layer is embedded from `include/common/buffer.h`: a buffer is a
byte region of `size` cells, a cursor `p` (a physical index into the region),
`i` pending-input bytes stored at `[p, p+i)` (wrapping) and `o` pending-output
bytes stored at `[p-o, p)` (wrapping).  Bytes are modelled as `Nat`, the byte
region as a `List Nat` of length `size`, and pointers as physical indices
into that list.
-/

structure Buffer where
  size : Nat
  p : Nat
  i : Nat
  o : Nat
  data : List Nat
  deriving DecidableEq

/-- Well-formedness of a (non-sentinel) buffer: the region has `size` cells,
the cursor lies inside it, and pending bytes fit. -/
def Buffer.WF (b : Buffer) : Prop :=
  b.data.length = b.size ∧ b.p < b.size ∧ b.i + b.o ≤ b.size

/-- The `b_ptr` macro of buffer.h for a non-negative offset: `p + ofs`,
wrapped once if it passes the end of the region. -/
def bptr (size p ofs : Nat) : Nat :=
  if 0 < ofs ∧ size ≤ p + ofs then p + ofs - size else p + ofs

/-- `buffer_len`: input plus output bytes. -/
def buffer_len (b : Buffer) : Nat :=
  b.i + b.o

/-- Modelled from the spec: `b_tail` comes from `common/buf.h`, which is not
in this snapshot.  It is the first cell past the pending input, i.e.
`b_ptr(b, b->i)`. -/
def b_tail (b : Buffer) : Nat :=
  bptr b.size b.p b.i

/-- Modelled from the spec: `b_contig_space` comes from `common/buf.h`, which
is not in this snapshot.  Spec §4.1: "contiguous_free_space(): largest span
writable without wrapping, accounting for both the physical end of the region
and the position of unconsumed output bytes — output bytes must never be
overwritten".  The free region starts at the tail and holds `size - i - o`
bytes; the largest span writable there without wrapping is additionally
bounded by the physical end of the region. -/
def b_contig_space (b : Buffer) : Nat :=
  min (b.size - b.i - b.o) (b.size - b_tail b)

/-- A `memcpy` of `blk` into the region at physical index `pos`, with no
wrapping.  A write falling outside the region (out of bounds in C) is dropped
by `List.set`. -/
def writeAt : List Nat → Nat → List Nat → List Nat
  | d, _, [] => d
  | d, pos, x :: xs => writeAt (d.set pos x) (pos + 1) xs

/-- Reads `n` bytes starting at physical index `pos`, wrapping at the end of
the region; mirrors the `p++; if (p == end) p = data;` loops of buffer.h. -/
def readWrap (d : List Nat) (size pos : Nat) : Nat → List Nat
  | 0 => []
  | n + 1 => d.getD pos 0 :: readWrap d size (if pos + 1 = size then 0 else pos + 1) n

/-- The logical pending-input byte sequence: `i` bytes starting at `p`. -/
def inputBytes (b : Buffer) : List Nat :=
  readWrap b.data b.size b.p b.i

/-- The logical pending-output byte sequence: `o` bytes ending just before
`p`, i.e. starting at the wrapped position `p - o`. -/
def outputBytes (b : Buffer) : List Nat :=
  readWrap b.data b.size ((b.p + b.size - b.o) % b.size) b.o

/-- Embedding of `bo_putblk` from buffer.h: copy a block into the output side at `p`,
truncating to the free space, splitting in two `memcpy`s at the physical end
of the region, advancing `p` past the copied bytes and growing `o`.  Returns
the number of bytes copied together with the new buffer. -/
def bo_putblk (b : Buffer) (blk : List Nat) : Nat × Buffer :=
  let cur_len := buffer_len b
  let len := if b.size - cur_len < blk.length then b.size - cur_len else blk.length
  if len = 0 then (0, b)
  else
    let half := min (b_contig_space b) len
    let d1 := writeAt b.data b.p (blk.take half)
    let p1 := bptr b.size b.p half
    if half < len then
      let d2 := writeAt d1 p1 ((blk.drop half).take (len - half))
      let p2 := bptr b.size p1 half
      (len, { b with data := d2, p := p2, o := b.o + len })
    else
      (len, { b with data := d1, p := p1, o := b.o + len })

/-- Embedding of `bi_putblk` from buffer.h: copy a block into the input side at the tail,
truncating to the free space, splitting in two `memcpy`s at the physical end
of the region and growing `i`.  Returns the number of bytes copied together
with the new buffer. -/
def bi_putblk (b : Buffer) (blk : List Nat) : Nat × Buffer :=
  let cur_len := buffer_len b
  let len := if b.size - cur_len < blk.length then b.size - cur_len else blk.length
  if len = 0 then (0, b)
  else
    let half := min (b_contig_space b) len
    let d1 := writeAt b.data (b_tail b) (blk.take half)
    let d2 :=
      if half < len then
        writeAt d1 (bptr b.size b.p (b.i + half)) ((blk.drop half).take (len - half))
      else d1
    (len, { b with data := d2, i := b.i + len })

/-- Loop body shared by `b_isteq`: compare the bytes of `ist` against the
region starting at physical index `pos`, wrapping at the end of the region;
`false` as soon as a byte differs. -/
def isteqLoop : List Nat → Nat → Nat → List Nat → Bool
  | _, _, _, [] => true
  | d, size, pos, x :: xs =>
    if d.getD pos 0 ≠ x then false
    else isteqLoop d size (if pos + 1 = size then 0 else pos + 1) xs

/-- Embedding of `b_isteq` from buffer.h: 0 when fewer than `ist.length` bytes
are in the compared window, -1 on a non-matching byte, `ist.length` when all
bytes match. -/
def b_isteq (b : Buffer) (o n : Nat) (ist : List Nat) : Int :=
  if n < ist.length then 0
  else if isteqLoop b.data b.size (bptr b.size b.p o) ist then ist.length else -1

/-- Modelled from the spec: `b_del` comes from `common/buf.h`, which is not in
this snapshot.  Spec §4.1 "consume_prefix(text): byte-wise compare and
optional removal of a prefix against the logical input stream": removing `n`
bytes of pending input advances the read cursor past them and shrinks the
pending-input count. -/
def b_del (b : Buffer) (n : Nat) : Buffer :=
  { b with i := b.i - n, p := bptr b.size b.p n }

/-- Embedding of `bi_eat` from buffer.h: match `ist` against the pending input and
consume it on success. -/
def bi_eat (b : Buffer) (ist : List Nat) : Int × Buffer :=
  let ret := b_isteq b 0 b.i ist
  if 0 < ret then (ret, b_del b ret.toNat) else (ret, b)

/-- The byte-writing loop of `bi_istput`/`bo_istput`: store the bytes of the
last argument one by one from physical index `pos`, wrapping at the end of
the region. -/
def writeWrap : List Nat → Nat → Nat → List Nat → List Nat
  | d, _, _, [] => d
  | d, size, pos, x :: xs =>
    writeWrap (d.set pos x) size (if pos + 1 = size then 0 else pos + 1) xs

/-- Embedding of `bi_istput` from buffer.h: inject a string into the input region
provided it fits; 0 if it temporarily does not fit, -1 if it never will. -/
def bi_istput (b : Buffer) (ist : List Nat) : Int × Buffer :=
  if b.size - b.i - b.o < ist.length then
    (if ist.length < b.size then 0 else -1, b)
  else
    (ist.length,
     { b with i := b.i + ist.length,
              data := writeWrap b.data b.size (bptr b.size b.p b.i) ist })

/-- Embedding of `bo_istput` from buffer.h: inject a string into the output region
provided it fits (pending input is assumed absent and is overwritten);
0 if it temporarily does not fit, -1 if it never will. -/
def bo_istput (b : Buffer) (ist : List Nat) : Int × Buffer :=
  if b.size - b.o < ist.length then
    (if ist.length < b.size then 0 else -1, b)
  else
    (ist.length,
     { b with o := b.o + ist.length, p := bptr b.size b.p ist.length,
              data := writeWrap b.data b.size b.p ist })

/-!
Stream endpoint flags.  Modelled from the spec: the `SE_FL_*` constants live
in haproxy/stconn-t.h, which is not in this snapshot; §4.3 describes a bitset
with one bit per independent condition: half-closed read (two modes),
half-closed write (two modes), end-of-input, end-of-stream, and an error
marker with two severities.  Each constant is one distinct bit; `SE_FL_SHR`
and `SE_FL_SHW` are the unions of the two modes of their direction.
-/

def SE_FL_T_MUX : Nat := 0x00000001
def SE_FL_T_APPLET : Nat := 0x00000002
def SE_FL_SHRD : Nat := 0x00000010
def SE_FL_SHRR : Nat := 0x00000020
def SE_FL_SHR : Nat := SE_FL_SHRD ||| SE_FL_SHRR
def SE_FL_SHWN : Nat := 0x00000040
def SE_FL_SHWS : Nat := 0x00000080
def SE_FL_SHW : Nat := SE_FL_SHWN ||| SE_FL_SHWS
def SE_FL_ERR_PENDING : Nat := 0x00000100
def SE_FL_ERROR : Nat := 0x00000200
def SE_FL_EOI : Nat := 0x00002000
def SE_FL_EOS : Nat := 0x00004000

/-- A stream endpoint descriptor, reduced to the flag set that the verified
functions manipulate. -/
structure SeDesc where
  flags : Nat
  deriving DecidableEq

/-- Embedding of `se_fl_set` from stconn.h. -/
def se_fl_set (se : SeDesc) (bits : Nat) : SeDesc :=
  { se with flags := se.flags ||| bits }

/-- Embedding of `se_fl_test` from stconn.h (`!!(se->flags & test)`). -/
def se_fl_test (se : SeDesc) (t : Nat) : Bool :=
  decide (se.flags &&& t ≠ 0)

/-- Embedding of `se_fl_set_error` from stconn.h. -/
def se_fl_set_error (se : SeDesc) : SeDesc :=
  if se_fl_test se (SE_FL_EOS ||| SE_FL_EOI) then se_fl_set se SE_FL_ERROR
  else se_fl_set se SE_FL_ERR_PENDING

/-- Shutdown-read modes of connection.h (`enum co_shr_mode`). -/
inductive CoShrMode where
  | reset
  | drain
  deriving DecidableEq

/-- Shutdown-write modes of connection.h (`enum co_shw_mode`). -/
inductive CoShwMode where
  | normal
  | silent
  deriving DecidableEq

/-- A stream connector attached to a connection, reduced to the state that
`sc_conn_shutr`/`sc_conn_shutw` observe: the endpoint flag set, whether the
connection's mux provides each shutdown hook, and a count of hook
invocations (the mux implementations are outside this snapshot, so a hook
call is recorded by its counter). -/
structure Stconn where
  flags : Nat
  muxHasShutr : Bool
  muxHasShutw : Bool
  shutrCalls : Nat
  shutwCalls : Nat
  deriving DecidableEq

/-- Embedding of `sc_conn_shutr` from stconn.h: no-op if a shut-read flag is
already set, else invoke the mux shutr hook (when the endpoint is a mux
stream and the hook exists) and record the half-closed direction. -/
def sc_conn_shutr (sc : Stconn) (mode : CoShrMode) : Stconn :=
  if sc.flags &&& SE_FL_SHR ≠ 0 then sc
  else
    let sc1 :=
      if sc.flags &&& SE_FL_T_MUX ≠ 0 ∧ sc.muxHasShutr then
        { sc with shutrCalls := sc.shutrCalls + 1 }
      else sc
    { sc1 with
        flags := sc1.flags ||| (match mode with
          | .drain => SE_FL_SHRD
          | .reset => SE_FL_SHRR) }

/-- Embedding of `sc_conn_shutw` from stconn.h: no-op if a shut-write flag is
already set, else invoke the mux shutw hook (when the endpoint is a mux
stream and the hook exists) and record the half-closed direction. -/
def sc_conn_shutw (sc : Stconn) (mode : CoShwMode) : Stconn :=
  if sc.flags &&& SE_FL_SHW ≠ 0 then sc
  else
    let sc1 :=
      if sc.flags &&& SE_FL_T_MUX ≠ 0 ∧ sc.muxHasShutw then
        { sc with shutwCalls := sc.shutwCalls + 1 }
      else sc
    { sc1 with
        flags := sc1.flags ||| (match mode with
          | .normal => SE_FL_SHWN
          | .silent => SE_FL_SHWS) }

/-- The kinds of endpoint a conn_stream's `end` pointer can reference
(src/conn_stream.c distinguishes a connection with a mux, a connection
without one, and an appctx). -/
inductive CsEndKind where
  | connWithMux
  | connNoMux
  | applet
  deriving DecidableEq

/-- The kinds of application a conn_stream's `app` pointer can reference. -/
inductive CsAppKind where
  | stream
  | healthCheck
  deriving DecidableEq

/-- A conn_stream, reduced to the fields cs_detach_endp/cs_detach_app touch.
The side effects on the detached objects themselves (mux->detach, closing an
orphan connection, releasing an appctx, si_free) belong to collaborators
outside this snapshot and do not feed back into these fields. -/
structure ConnStream where
  endp : Option CsEndKind
  app : Option CsAppKind
  si : Bool
  flags : Nat
  dataCb : Bool
  deriving DecidableEq

/-- Embedding of `cs_detach_endp` from src/conn_stream.c: release the endpoint,
reset the endpoint-related fields, and free the conn_stream (result `none`)
exactly when no application is attached. -/
def cs_detach_endp (cs : ConnStream) : Option ConnStream :=
  let cs1 := { cs with flags := 0, endp := none, dataCb := false }
  if cs1.app = none then none else some cs1

/-- Embedding of `cs_detach_app` from src/conn_stream.c: release the stream
interface, clear the application side, and free the conn_stream (result
`none`) exactly when no endpoint is attached. -/
def cs_detach_app (cs : ConnStream) : Option ConnStream :=
  let cs1 := { cs with app := none, si := false, dataCb := false }
  if cs1.endp = none then none else some cs1

/-!
The buffer pool.  The pool primitives (`__pool_get_first`,
`__pool_refill_alloc`, `pool_alloc_dirty`) live in common/memory.h, which is
not in this snapshot; they are modelled from the spec (§2, §4.2): a bounded
pool `{ allocated_count, used_count, capacity_limit, free_list }` whose free
list holds the `allocated - used` recycled buffers, growing only below the
ceiling.  The lock-protected region of `b_alloc_margin` is one atomic step
of the model.
-/

structure PoolState where
  allocated : Nat
  used : Nat
  limit : Nat
  bufsize : Nat
  deriving DecidableEq

/-- Modelled from the spec: `__pool_get_first` pops a recycled buffer from the
free list when one is there (`used < allocated`), marking it used; it never
allocates fresh memory. -/
def pool_get_first (p : PoolState) : Option Unit × PoolState :=
  if p.used < p.allocated then (some (), { p with used := p.used + 1 }) else (none, p)

/-- Modelled from the spec: `__pool_refill_alloc`, the slow path, grows the
pool from system memory, "bounded by a global ceiling"; at the ceiling it
fails. -/
def pool_refill_alloc (p : PoolState) (margin : Nat) : Option Unit × PoolState :=
  if p.allocated < p.limit then
    (some (), { p with allocated := p.allocated + 1, used := p.used + 1 })
  else (none, p)

/-- Modelled from the spec: `pool_alloc_dirty` takes a recycled buffer when one
is free, else grows the pool below the ceiling, else fails. -/
def pool_alloc_dirty (p : PoolState) : Option Unit × PoolState :=
  if p.used < p.allocated then (some (), { p with used := p.used + 1 })
  else if p.allocated < p.limit then
    (some (), { p with allocated := p.allocated + 1, used := p.used + 1 })
  else (none, p)

/-- What a caller's `struct buffer *` handle can reference: the `buf_empty`
sentinel, the `buf_wanted` sentinel, or an allocated buffer carrying its
`size` field (both sentinels have size 0). -/
inductive BufPtr where
  | empty
  | wanted
  | real (size : Nat)
  deriving DecidableEq

/-- Dereferenced `size` field of the handle (0 for both sentinels). -/
def BufPtr.size : BufPtr → Nat
  | .empty => 0
  | .wanted => 0
  | .real s => s

/-- Embedding of `b_alloc` from buffer.h: point the handle at `buf_wanted`, then
allocate (`pool_alloc_dirty`); on success size the buffer, reset it and give
it to the handle; on failure the handle is left on `buf_wanted` and NULL
(`none`) is returned. -/
def b_alloc (pool : PoolState) (buf : BufPtr) : Option BufPtr × PoolState × BufPtr :=
  match pool_alloc_dirty pool with
  | (some _, pool1) => (some (.real pool.bufsize), pool1, .real pool.bufsize)
  | (none, pool1) => (none, pool1, .wanted)

/-- Embedding of `b_alloc_fast` from buffer.h: like `b_alloc` but only ever pops
the free list (`pool_get_first`), never calling malloc. -/
def b_alloc_fast (pool : PoolState) (buf : BufPtr) : Option BufPtr × PoolState × BufPtr :=
  match pool_get_first pool with
  | (some _, pool1) => (some (.real pool.bufsize), pool1, .real pool.bufsize)
  | (none, pool1) => (none, pool1, .wanted)

/-- Embedding of `b_alloc_margin` from buffer.h: return an already-allocated
handle unchanged; otherwise point the handle at `buf_wanted` and, in one
locked step, pop the free list only if more than `margin` buffers are
available, falling through to the bounded slow path otherwise (or when the
pop fails); a total failure leaves the handle on `buf_wanted` and returns
NULL (`none`). -/
def b_alloc_margin (pool : PoolState) (buf : BufPtr) (margin : Nat) :
    Option BufPtr × PoolState × BufPtr :=
  if buf.size ≠ 0 then (some buf, pool, buf)
  else
    if margin < pool.allocated - pool.used then
      match pool_get_first pool with
      | (some _, pool1) => (some (.real pool.bufsize), pool1, .real pool.bufsize)
      | (none, pool1) =>
        match pool_refill_alloc pool1 margin with
        | (some _, pool2) => (some (.real pool.bufsize), pool2, .real pool.bufsize)
        | (none, pool2) => (none, pool2, .wanted)
    else
      match pool_refill_alloc pool margin with
      | (some _, pool2) => (some (.real pool.bufsize), pool2, .real pool.bufsize)
      | (none, pool2) => (none, pool2, .wanted)

/-!
Per-stream QUIC flow control.  Only the record type (`struct qcs`,
haproxy/mux_quic-t.h) is in this snapshot; the operations on it live in
src/mux_quic.c, which is not.  They are modelled from the spec (§3, §4.5).
-/

def QC_SF_BLK_SFCTL : Nat := 0x00000010

/-- The flow-control fields of a `struct qcs`: `rx.offset`/`rx` ceiling and
`tx.offset`/`tx.sent_offset`/`tx.msd`, plus the `QC_SF_*` flag word. -/
structure QcsFc where
  rxOffset : Nat
  rxMax : Nat
  txOffset : Nat
  txSent : Nat
  txMsd : Nat
  flags : Nat
  deriving DecidableEq

/-- The claimed invariant of a flow-control record. -/
def QcsFc.Inv (s : QcsFc) : Prop :=
  s.rxOffset ≤ s.rxMax ∧ s.txSent ≤ s.txOffset ∧ s.txOffset ≤ s.txMsd

/-- Operations driving a per-stream flow-control record. -/
inductive QcsOp where
  | recv (off len : Nat)
  | send (len : Nat)
  | sent (len : Nat)
  | maxStreamData (m : Nat)
  deriving DecidableEq

/-- Modelled from the spec: one step of the flow-control state machine of
src/mux_quic.c (not in this snapshot).  Spec §3/§4.5: receiving past
`rx_max_offset` is a protocol error "rejected rather than asserted"; sending
past `tx.msd` blocks the stream (`QC_SF_BLK_SFCTL`) instead of advancing;
the transport never reports more bytes sent than were made ready; a
MAX_STREAM_DATA update only ever raises the ceiling and unblocks the
stream. -/
def QcsFc.step (s : QcsFc) (op : QcsOp) : Except Unit QcsFc :=
  match op with
  | .recv off len =>
    if s.rxMax < off + len then .error ()
    else .ok { s with rxOffset := max s.rxOffset (off + len) }
  | .send len =>
    if s.txMsd < s.txOffset + len then
      .ok { s with flags := s.flags ||| QC_SF_BLK_SFCTL }
    else .ok { s with txOffset := s.txOffset + len }
  | .sent len =>
    if s.txOffset < s.txSent + len then .error ()
    else .ok { s with txSent := s.txSent + len }
  | .maxStreamData m =>
    if s.txMsd ≤ m then
      .ok { s with txMsd := m, flags := Nat.ldiff s.flags QC_SF_BLK_SFCTL }
    else .ok s

/-- Runs a sequence of operations; a rejected (protocol-error) operation
leaves the record unchanged, as the spec demands. -/
def QcsFc.run (s : QcsFc) : List QcsOp → QcsFc
  | [] => s
  | op :: ops =>
    (match s.step op with
     | .ok s1 => s1
     | .error _ => s).run ops

/-!
Theorems.  First some generic helpers about bit sets, modular positions and
the wrapping read/write loops, then one theorem per claim.
-/

theorem testBit_ne_zero {x : Nat} {k : Nat} (h : x.testBit k = true) : x ≠ 0 := by
  intro h0
  rw [h0, Nat.zero_testBit] at h
  exact Bool.false_ne_true h

theorem lor_land_ne_zero (x : Nat) {m t : Nat} (k : Nat)
    (hm : m.testBit k = true) (ht : t.testBit k = true) : (x ||| m) &&& t ≠ 0 := by
  apply testBit_ne_zero (k := k)
  rw [Nat.testBit_land, Nat.testBit_lor, hm, ht, Bool.or_true, Bool.true_and]

theorem land_two_pow_or_ne_zero_iff (x : Nat) {j k : Nat} (hjk : j ≠ k) :
    x &&& (2 ^ j ||| 2 ^ k) ≠ 0 ↔ (x.testBit j = true ∨ x.testBit k = true) := by
  constructor
  · intro h
    by_contra hc
    push_neg at hc
    obtain ⟨hj, hk⟩ := hc
    apply h
    apply Nat.eq_of_testBit_eq
    intro i
    rw [Nat.testBit_land, Nat.testBit_lor, Nat.zero_testBit]
    rcases eq_or_ne i j with rfl | hij
    · simp [Bool.eq_false_iff.mpr hj]
    · rcases eq_or_ne i k with rfl | hik
      · simp [Bool.eq_false_iff.mpr hk]
      · rw [Nat.testBit_two_pow_of_ne (Ne.symm hij), Nat.testBit_two_pow_of_ne (Ne.symm hik)]
        simp
  · rintro (h | h)
    · apply testBit_ne_zero (k := j)
      rw [Nat.testBit_land, Nat.testBit_lor, h, Nat.testBit_two_pow_self]
      simp
    · apply testBit_ne_zero (k := k)
      rw [Nat.testBit_land, Nat.testBit_lor, h, Nat.testBit_two_pow_self,
        Nat.testBit_two_pow_of_ne hjk]
      simp

theorem sc_conn_shutr_noop (sc : Stconn) (m : CoShrMode)
    (h : sc.flags &&& SE_FL_SHR ≠ 0) : sc_conn_shutr sc m = sc := by
  simp only [sc_conn_shutr, if_pos h]

theorem sc_conn_shutw_noop (sc : Stconn) (m : CoShwMode)
    (h : sc.flags &&& SE_FL_SHW ≠ 0) : sc_conn_shutw sc m = sc := by
  simp only [sc_conn_shutw, if_pos h]

theorem sc_conn_shutr_flags (sc : Stconn) (m : CoShrMode)
    (hg : ¬sc.flags &&& SE_FL_SHR ≠ 0) :
    (sc_conn_shutr sc m).flags =
      sc.flags ||| (match m with | .drain => SE_FL_SHRD | .reset => SE_FL_SHRR) := by
  simp only [sc_conn_shutr, if_neg hg]
  by_cases hc : sc.flags &&& SE_FL_T_MUX ≠ 0 ∧ sc.muxHasShutr = true
  · simp [hc]
  · simp [hc]

theorem sc_conn_shutw_flags (sc : Stconn) (m : CoShwMode)
    (hg : ¬sc.flags &&& SE_FL_SHW ≠ 0) :
    (sc_conn_shutw sc m).flags =
      sc.flags ||| (match m with | .normal => SE_FL_SHWN | .silent => SE_FL_SHWS) := by
  simp only [sc_conn_shutw, if_neg hg]
  by_cases hc : sc.flags &&& SE_FL_T_MUX ≠ 0 ∧ sc.muxHasShutw = true
  · simp [hc]
  · simp [hc]

/-- C5: on a stream connector attached to a connection, shutdown-read (and
shutdown-write) called twice in a row yields exactly the state of a single
call: the second call is a flag-guarded no-op, so the endpoint flag set and
the number of mux shutdown-hook invocations are those of one call. -/
theorem claim_C5 (sc : Stconn) (mr : CoShrMode) (mw : CoShwMode)
    (hconn : sc.flags &&& SE_FL_T_MUX ≠ 0) :
    sc_conn_shutr (sc_conn_shutr sc mr) mr = sc_conn_shutr sc mr ∧
    sc_conn_shutw (sc_conn_shutw sc mw) mw = sc_conn_shutw sc mw := by
  constructor
  · by_cases hg : sc.flags &&& SE_FL_SHR ≠ 0
    · rw [sc_conn_shutr_noop sc mr hg, sc_conn_shutr_noop sc mr hg]
    · apply sc_conn_shutr_noop
      rw [sc_conn_shutr_flags sc mr hg]
      cases mr
      · exact lor_land_ne_zero _ 5 (by decide) (by decide)
      · exact lor_land_ne_zero _ 4 (by decide) (by decide)
  · by_cases hg : sc.flags &&& SE_FL_SHW ≠ 0
    · rw [sc_conn_shutw_noop sc mw hg, sc_conn_shutw_noop sc mw hg]
    · apply sc_conn_shutw_noop
      rw [sc_conn_shutw_flags sc mw hg]
      cases mw
      · exact lor_land_ne_zero _ 6 (by decide) (by decide)
      · exact lor_land_ne_zero _ 7 (by decide) (by decide)

theorem claim_C5_witness :
    ((⟨0x1, true, true, 0, 0⟩ : Stconn).flags &&& SE_FL_T_MUX ≠ 0) ∧
    sc_conn_shutr (sc_conn_shutr ⟨0x1, true, true, 0, 0⟩ CoShrMode.drain) CoShrMode.drain =
      sc_conn_shutr ⟨0x1, true, true, 0, 0⟩ CoShrMode.drain :=
  ⟨by decide, (claim_C5 ⟨0x1, true, true, 0, 0⟩ CoShrMode.drain CoShwMode.normal
      (by decide)).1⟩

/-- C6: detaching the endpoint frees the conn_stream exactly when the
application side is absent (the application pointer is untouched by the
endpoint detach), and detaching the application frees it exactly when the
endpoint side is absent; otherwise the conn_stream survives with the
detached side cleared. -/
theorem claim_C6 (cs : ConnStream) :
    (cs_detach_endp cs = none ↔ cs.app = none) ∧
    (∀ cs1, cs_detach_endp cs = some cs1 → cs1.app = cs.app ∧ cs1.endp = none) ∧
    (cs_detach_app cs = none ↔ cs.endp = none) ∧
    (∀ cs1, cs_detach_app cs = some cs1 → cs1.endp = cs.endp ∧ cs1.app = none) := by
  refine ⟨?_, ?_, ?_, ?_⟩
  · by_cases h : cs.app = none <;> simp [cs_detach_endp, h]
  · intro cs1 h1
    by_cases h : cs.app = none
    · simp [cs_detach_endp, h] at h1
    · simp [cs_detach_endp, h] at h1
      rw [← h1]
      exact ⟨rfl, rfl⟩
  · by_cases h : cs.endp = none <;> simp [cs_detach_app, h]
  · intro cs1 h1
    by_cases h : cs.endp = none
    · simp [cs_detach_app, h] at h1
    · simp [cs_detach_app, h] at h1
      rw [← h1]
      exact ⟨rfl, rfl⟩

theorem claim_C6_witness :
    cs_detach_app ⟨none, some CsAppKind.stream, true, 0, true⟩ = none :=
  (claim_C6 ⟨none, some CsAppKind.stream, true, 0, true⟩).2.2.1.mpr rfl

/-- C7: se_fl_set_error sets the confirmed error bit exactly when
end-of-stream or end-of-input was already observed, and otherwise sets the
pending error bit; in either case every other bit of the flag set is left
unchanged (bit 9 is SE_FL_ERROR, bit 8 is SE_FL_ERR_PENDING, bits 14 and 13
are SE_FL_EOS and SE_FL_EOI). -/
theorem claim_C7 (se : SeDesc) :
    (se.flags &&& (SE_FL_EOS ||| SE_FL_EOI) ≠ 0 ↔
       (se.flags.testBit 14 = true ∨ se.flags.testBit 13 = true)) ∧
    ((se.flags.testBit 14 = true ∨ se.flags.testBit 13 = true) →
       (se_fl_set_error se).flags.testBit 9 = true ∧
       ∀ k, k ≠ 9 → (se_fl_set_error se).flags.testBit k = se.flags.testBit k) ∧
    ((se.flags.testBit 14 = false ∧ se.flags.testBit 13 = false) →
       (se_fl_set_error se).flags.testBit 8 = true ∧
       ∀ k, k ≠ 8 → (se_fl_set_error se).flags.testBit k = se.flags.testBit k) := by
  have hmask : SE_FL_EOS ||| SE_FL_EOI = 2 ^ 14 ||| 2 ^ 13 := by decide
  have hiff := land_two_pow_or_ne_zero_iff se.flags (j := 14) (k := 13) (by decide)
  refine ⟨by rw [hmask]; exact hiff, ?_, ?_⟩
  · intro h
    have htest : se_fl_test se (SE_FL_EOS ||| SE_FL_EOI) = true := by
      simp only [se_fl_test, decide_eq_true_eq]
      rw [hmask]
      exact hiff.mpr h
    simp only [se_fl_set_error, htest, if_true, se_fl_set]
    constructor
    · rw [Nat.testBit_lor, show SE_FL_ERROR.testBit 9 = true from by decide]
      simp
    · intro k hk
      rw [Nat.testBit_lor, show SE_FL_ERROR = 2 ^ 9 from by decide,
        Nat.testBit_two_pow_of_ne (Ne.symm hk)]
      simp
  · rintro ⟨h14, h13⟩
    have htest : se_fl_test se (SE_FL_EOS ||| SE_FL_EOI) = false := by
      simp only [se_fl_test, decide_eq_false_iff_not]
      rw [hmask]
      intro hne
      rcases hiff.mp hne with h | h
      · rw [h14] at h; exact Bool.false_ne_true h
      · rw [h13] at h; exact Bool.false_ne_true h
    simp only [se_fl_set_error, htest, Bool.false_eq_true, if_false, se_fl_set]
    constructor
    · rw [Nat.testBit_lor, show SE_FL_ERR_PENDING.testBit 8 = true from by decide]
      simp
    · intro k hk
      rw [Nat.testBit_lor, show SE_FL_ERR_PENDING = 2 ^ 8 from by decide,
        Nat.testBit_two_pow_of_ne (Ne.symm hk)]
      simp

/-- C1 fails on the code: on a buffer of capacity 8 with the cursor at cell 6
and no pending data, bo_putblk of the 5-byte block [1,2,3,4,5] splits at the
wrap boundary (2 bytes before the end, 3 after), reports 5 bytes copied, but
advances the write pointer by only 4 cells (to 2 instead of 3), because the
split branch advances `p` by `half` a second time instead of `len - half`
(buffer.h line 285).  The logical output sequence read back is then
[9,1,2,3,4] — one stale byte followed by only four of the five copied
bytes — not the written sequence. -/
theorem claim_C1_counterexample :
    bo_putblk ⟨8, 6, 0, 0, [9, 9, 9, 9, 9, 9, 9, 9]⟩ [1, 2, 3, 4, 5] =
      (5, ⟨8, 2, 0, 5, [3, 4, 5, 9, 9, 9, 1, 2]⟩) ∧
    outputBytes (bo_putblk ⟨8, 6, 0, 0, [9, 9, 9, 9, 9, 9, 9, 9]⟩ [1, 2, 3, 4, 5]).2 =
      [9, 1, 2, 3, 4] ∧
    ([9, 1, 2, 3, 4] : List Nat) ≠ [1, 2, 3, 4, 5] ∧
    ((bo_putblk ⟨8, 6, 0, 0, [9, 9, 9, 9, 9, 9, 9, 9]⟩ [1, 2, 3, 4, 5]).2.p + 8 - 6) % 8 = 4 := by
  decide

/-- C3: with the caller's handle unallocated, b_alloc_margin pops the free
list only when strictly more than `margin` buffers are available, leaving at
least `margin` available after the pop; when the margin check fails it falls
through to the bounded slow-path growth.  The margin check and the pop are
one atomic step of the model, mirroring the pool critical section they share
in the source. -/
theorem claim_C3 (pool : PoolState) (buf : BufPtr) (M : Nat)
    (hbuf : buf.size = 0) (hwf : pool.used ≤ pool.allocated) :
    (M < pool.allocated - pool.used →
       b_alloc_margin pool buf M =
         (some (BufPtr.real pool.bufsize), { pool with used := pool.used + 1 },
          BufPtr.real pool.bufsize) ∧
       M ≤ pool.allocated - (pool.used + 1)) ∧
    (pool.allocated - pool.used ≤ M →
       b_alloc_margin pool buf M =
         (match pool_refill_alloc pool M with
          | (some _, pool2) => (some (BufPtr.real pool.bufsize), pool2, BufPtr.real pool.bufsize)
          | (none, pool2) => (none, pool2, BufPtr.wanted))) := by
  constructor
  · intro hM
    have hfree : pool.used < pool.allocated := by omega
    constructor
    · simp [b_alloc_margin, hbuf, hM, pool_get_first, hfree]
    · omega
  · intro hM
    have hM2 : ¬M < pool.allocated - pool.used := by omega
    simp [b_alloc_margin, hbuf, hM2]

theorem claim_C3_witness :
    (BufPtr.empty.size = 0) ∧ ((⟨4, 1, 8, 1024⟩ : PoolState).used ≤ 4) ∧
    b_alloc_margin ⟨4, 1, 8, 1024⟩ BufPtr.empty 2 =
      (some (BufPtr.real 1024), ⟨4, 2, 8, 1024⟩, BufPtr.real 1024) :=
  ⟨rfl, by decide,
   ((claim_C3 ⟨4, 1, 8, 1024⟩ BufPtr.empty 2 rfl (by decide)).1 (by decide)).1⟩

/-- C4: when no memory is available at all (free list empty and pool at its
ceiling), every allocation primitive leaves the caller's handle on the
`buf_wanted` sentinel and returns NULL, never failing harder; and a handle
that already carries an allocated buffer (size != 0) is returned unchanged
by b_alloc_margin without touching the pool. -/
theorem claim_C4 (pool : PoolState) (buf : BufPtr) (M : Nat)
    (hfree : pool.allocated ≤ pool.used) (hceil : pool.limit ≤ pool.allocated) :
    b_alloc pool buf = (none, pool, BufPtr.wanted) ∧
    b_alloc_fast pool buf = (none, pool, BufPtr.wanted) ∧
    (buf.size = 0 → b_alloc_margin pool buf M = (none, pool, BufPtr.wanted)) ∧
    (buf.size ≠ 0 → b_alloc_margin pool buf M = (some buf, pool, buf)) := by
  have h1 : ¬pool.used < pool.allocated := by omega
  have h2 : ¬pool.allocated < pool.limit := by omega
  refine ⟨?_, ?_, ?_, ?_⟩
  · simp [b_alloc, pool_alloc_dirty, h1, h2]
  · simp [b_alloc_fast, pool_get_first, h1]
  · intro hbuf
    have h3 : ¬M < pool.allocated - pool.used := by omega
    simp [b_alloc_margin, hbuf, h3, pool_refill_alloc, h2]
  · intro hbuf
    simp [b_alloc_margin, hbuf]

theorem claim_C4_witness :
    b_alloc ⟨3, 3, 3, 1024⟩ BufPtr.empty = (none, ⟨3, 3, 3, 1024⟩, BufPtr.wanted) ∧
    b_alloc_margin ⟨3, 3, 3, 1024⟩ (BufPtr.real 7) 1 =
      (some (BufPtr.real 7), ⟨3, 3, 3, 1024⟩, BufPtr.real 7) :=
  ⟨(claim_C4 ⟨3, 3, 3, 1024⟩ BufPtr.empty 1 (by decide) (by decide)).1,
   (claim_C4 ⟨3, 3, 3, 1024⟩ (BufPtr.real 7) 1 (by decide) (by decide)).2.2.2 (by decide)⟩

theorem qcs_step_preserves (s : QcsFc) (op : QcsOp) (h : s.Inv) :
    (match s.step op with | .ok s1 => s1 | .error _ => s).Inv ∧
    s.txSent ≤ (match s.step op with | .ok s1 => s1 | .error _ => s).txSent := by
  obtain ⟨h1, h2, h3⟩ := h
  cases op with
  | recv off len =>
    by_cases hr : s.rxMax < off + len
    · simp only [QcsFc.step, if_pos hr]
      exact ⟨⟨h1, h2, h3⟩, Nat.le_refl _⟩
    · simp only [QcsFc.step, if_neg hr]
      exact ⟨⟨max_le h1 (show off + len ≤ s.rxMax by omega), h2, h3⟩, Nat.le_refl _⟩
  | send len =>
    by_cases hs : s.txMsd < s.txOffset + len
    · simp only [QcsFc.step, if_pos hs]
      exact ⟨⟨h1, h2, h3⟩, Nat.le_refl _⟩
    · simp only [QcsFc.step, if_neg hs]
      exact ⟨⟨h1, show s.txSent ≤ s.txOffset + len by omega,
        show s.txOffset + len ≤ s.txMsd by omega⟩, Nat.le_refl _⟩
  | sent len =>
    by_cases hs : s.txOffset < s.txSent + len
    · simp only [QcsFc.step, if_pos hs]
      exact ⟨⟨h1, h2, h3⟩, Nat.le_refl _⟩
    · simp only [QcsFc.step, if_neg hs]
      exact ⟨⟨h1, show s.txSent + len ≤ s.txOffset by omega, h3⟩,
        show s.txSent ≤ s.txSent + len by omega⟩
  | maxStreamData m =>
    by_cases hm : s.txMsd ≤ m
    · simp only [QcsFc.step, if_pos hm]
      exact ⟨⟨h1, h2, show s.txOffset ≤ m by omega⟩, Nat.le_refl _⟩
    · simp only [QcsFc.step, if_neg hm]
      exact ⟨⟨h1, h2, h3⟩, Nat.le_refl _⟩

theorem qcs_run_preserves (ops : List QcsOp) : ∀ s : QcsFc, s.Inv →
    (QcsFc.run s ops).Inv ∧ s.txSent ≤ (QcsFc.run s ops).txSent := by
  induction ops with
  | nil => exact fun s h => ⟨h, Nat.le_refl _⟩
  | cons op ops ih =>
    intro s h
    have hstep := qcs_step_preserves s op h
    rw [QcsFc.run]
    obtain ⟨ha, hb⟩ := ih _ hstep.1
    exact ⟨ha, Nat.le_trans hstep.2 hb⟩

/-- C9: from any state satisfying the flow-control invariant, every sequence
of operations keeps `rx_offset <= rx_max`, `tx.sent_offset <= tx.offset <=
tx.msd`, and never decreases `tx.sent_offset`; an input that would push the
receive offset past its ceiling, or report more bytes sent than were made
ready, is rejected as a protocol error instead of being applied. -/
theorem claim_C9 (s : QcsFc) (ops : List QcsOp) (hInv : s.Inv) :
    (QcsFc.run s ops).Inv ∧ s.txSent ≤ (QcsFc.run s ops).txSent ∧
    (∀ off len, s.rxMax < off + len → s.step (QcsOp.recv off len) = .error ()) ∧
    (∀ len, s.txOffset < s.txSent + len → s.step (QcsOp.sent len) = .error ()) := by
  obtain ⟨ha, hb⟩ := qcs_run_preserves ops s hInv
  refine ⟨ha, hb, ?_, ?_⟩
  · intro off len hr
    simp [QcsFc.step, hr]
  · intro len hs
    simp [QcsFc.step, hs]

theorem claim_C9_witness :
    (QcsFc.Inv ⟨0, 10, 0, 0, 5, 0⟩) ∧
    QcsFc.Inv (QcsFc.run ⟨0, 10, 0, 0, 5, 0⟩
      [QcsOp.recv 0 3, QcsOp.send 2, QcsOp.sent 1, QcsOp.recv 9 9]) := by
  constructor
  · exact ⟨by decide, by decide, by decide⟩
  · exact (claim_C9 ⟨0, 10, 0, 0, 5, 0⟩
      [QcsOp.recv 0 3, QcsOp.send 2, QcsOp.sent 1, QcsOp.recv 9 9]
      ⟨by decide, by decide, by decide⟩).1

theorem wrapNext_eq_mod (size pos : Nat) (h : pos < size) :
    (if pos + 1 = size then 0 else pos + 1) = (pos + 1) % size := by
  by_cases h1 : pos + 1 = size
  · rw [if_pos h1, h1, Nat.mod_self]
  · rw [if_neg h1, Nat.mod_eq_of_lt (by omega)]

theorem bptr_eq_mod (size p ofs : Nat) (hp : p < size) (hofs : p + ofs < 2 * size) :
    bptr size p ofs = (p + ofs) % size := by
  unfold bptr
  by_cases h1 : 0 < ofs ∧ size ≤ p + ofs
  · rw [if_pos h1, Nat.mod_eq_sub_mod h1.2, Nat.mod_eq_of_lt (by omega)]
  · rw [if_neg h1]
    push_neg at h1
    by_cases h2 : 0 < ofs
    · have := h1 h2
      rw [Nat.mod_eq_of_lt (by omega)]
    · have h3 : ofs = 0 := by omega
      rw [h3, Nat.add_zero, Nat.mod_eq_of_lt hp]

theorem add_mod_inj {size : Nat} (p : Nat) {x y : Nat} (hx : x < size) (hy : y < size)
    (h : (p + x) % size = (p + y) % size) : x = y := by
  have h2 : x ≡ y [MOD size] := Nat.ModEq.add_left_cancel' p h
  rw [Nat.ModEq, Nat.mod_eq_of_lt hx, Nat.mod_eq_of_lt hy] at h2
  exact h2

theorem readWrap_length (d : List Nat) (size : Nat) :
    ∀ (n pos : Nat), (readWrap d size pos n).length = n := by
  intro n
  induction n with
  | zero => intro pos; rfl
  | succ n ih => intro pos; rw [readWrap, List.length_cons, ih]

theorem readWrap_eq_map (d : List Nat) (size : Nat) :
    ∀ (n pos : Nat), pos < size →
      readWrap d size pos n = (List.range n).map (fun k => d.getD ((pos + k) % size) 0) := by
  intro n
  induction n with
  | zero => intro pos h; rfl
  | succ n ih =>
    intro pos h
    have hsz : 0 < size := by omega
    rw [readWrap, wrapNext_eq_mod size pos h, ih _ (Nat.mod_lt _ hsz),
      List.range_succ_eq_map, List.map_cons, List.map_map]
    congr 1
    · rw [Nat.add_zero, Nat.mod_eq_of_lt h]
    · apply List.map_congr_left
      intro a _
      simp only [Function.comp_apply, Nat.succ_eq_add_one]
      rw [Nat.mod_add_mod, show pos + 1 + a = pos + (a + 1) from by omega]

theorem map_getD_range (l : List Nat) :
    (List.range l.length).map (fun k => l.getD k 0) = l := by
  apply List.ext_getElem
  · simp
  · intro i h1 h2
    simp only [List.getElem_map, List.getElem_range]
    exact List.getD_eq_getElem l 0 h2

theorem readWrap_add (d : List Nat) (size pos m n : Nat) (hpos : pos < size) :
    readWrap d size pos (m + n) =
      readWrap d size pos m ++ readWrap d size ((pos + m) % size) n := by
  have hsz : 0 < size := by omega
  rw [readWrap_eq_map d size (m + n) pos hpos, readWrap_eq_map d size m pos hpos,
    readWrap_eq_map d size n ((pos + m) % size) (Nat.mod_lt _ hsz),
    List.range_add, List.map_append, List.map_map]
  congr 1
  apply List.map_congr_left
  intro a _
  simp only [Function.comp_apply]
  rw [Nat.mod_add_mod, Nat.add_assoc]

theorem writeWrap_length (size : Nat) :
    ∀ (blk d : List Nat) (pos : Nat), (writeWrap d size pos blk).length = d.length := by
  intro blk
  induction blk with
  | nil => intro d pos; rfl
  | cons x xs ih => intro d pos; rw [writeWrap, ih, List.length_set]

theorem writeWrap_getD_notin (size : Nat) :
    ∀ (blk d : List Nat) (pos j : Nat), pos < size → blk.length ≤ size →
      (∀ k, k < blk.length → (pos + k) % size ≠ j) →
      (writeWrap d size pos blk).getD j 0 = d.getD j 0 := by
  intro blk
  induction blk with
  | nil => intro d pos j _ _ _; rfl
  | cons x xs ih =>
    intro d pos j hpos hlen hdisj
    have hsz : 0 < size := by omega
    have hj : pos ≠ j := by
      have h0 := hdisj 0 (by simp)
      rwa [Nat.add_zero, Nat.mod_eq_of_lt hpos] at h0
    have hd2 : ∀ k, k < xs.length → ((pos + 1) % size + k) % size ≠ j := by
      intro k hk
      rw [Nat.mod_add_mod, show pos + 1 + k = pos + (k + 1) from by omega]
      exact hdisj (k + 1) (by simp only [List.length_cons]; omega)
    rw [writeWrap, wrapNext_eq_mod size pos hpos,
      ih (d.set pos x) _ j (Nat.mod_lt _ hsz) (by simp only [List.length_cons] at hlen; omega) hd2,
      List.getD_eq_getElem?_getD, List.getD_eq_getElem?_getD, List.getElem?_set_ne hj]

theorem writeWrap_getD_idx (size : Nat) :
    ∀ (blk d : List Nat) (pos k : Nat), pos < size → blk.length ≤ size →
      d.length = size → k < blk.length →
      (writeWrap d size pos blk).getD ((pos + k) % size) 0 = blk.getD k 0 := by
  intro blk
  induction blk with
  | nil => intro d pos k _ _ _ hk; simp at hk
  | cons x xs ih =>
    intro d pos k hpos hlen hd hk
    have hsz : 0 < size := by omega
    rw [writeWrap, wrapNext_eq_mod size pos hpos]
    cases k with
    | zero =>
      have hnot : ∀ k2, k2 < xs.length → ((pos + 1) % size + k2) % size ≠ (pos + 0) % size := by
        intro k2 hk2 heq
        rw [Nat.mod_add_mod] at heq
        have hlt : 1 + k2 < size := by
          simp only [List.length_cons] at hlen
          omega
        have h00 := add_mod_inj pos (x := 1 + k2) (y := 0) hlt hsz
          (by rw [show pos + (1 + k2) = pos + 1 + k2 from by omega]; exact heq)
        omega
      rw [writeWrap_getD_notin size xs (d.set pos x) ((pos + 1) % size) _
          (Nat.mod_lt _ hsz) (by simp only [List.length_cons] at hlen; omega) hnot,
        Nat.add_zero, Nat.mod_eq_of_lt hpos, List.getD_eq_getElem?_getD,
        List.getElem?_set_self (by omega), Option.getD_some, List.getD_cons_zero]
    | succ k2 =>
      have hstep : (pos + (k2 + 1)) % size = ((pos + 1) % size + k2) % size := by
        rw [Nat.mod_add_mod, show pos + 1 + k2 = pos + (k2 + 1) from by omega]
      rw [hstep, ih (d.set pos x) _ k2 (Nat.mod_lt _ hsz)
          (by simp only [List.length_cons] at hlen; omega)
          (by rw [List.length_set]; exact hd)
          (by simp only [List.length_cons] at hk; omega),
        List.getD_cons_succ]

theorem writeWrap_append (size : Nat) :
    ∀ (xs ys d : List Nat) (pos : Nat), pos < size →
      writeWrap d size pos (xs ++ ys) =
        writeWrap (writeWrap d size pos xs) size ((pos + xs.length) % size) ys := by
  intro xs
  induction xs with
  | nil =>
    intro ys d pos hpos
    simp only [List.nil_append, writeWrap, List.length_nil, Nat.add_zero,
      Nat.mod_eq_of_lt hpos]
  | cons x xs ih =>
    intro ys d pos hpos
    have hsz : 0 < size := by omega
    rw [List.cons_append, writeWrap, writeWrap, wrapNext_eq_mod size pos hpos,
      ih ys (d.set pos x) ((pos + 1) % size) (Nat.mod_lt _ hsz)]
    congr 1
    rw [Nat.mod_add_mod, List.length_cons,
      show pos + 1 + xs.length = pos + (xs.length + 1) from by omega]

theorem writeWrap_eq_writeAt (size : Nat) :
    ∀ (blk d : List Nat) (pos : Nat), pos + blk.length ≤ size →
      writeWrap d size pos blk = writeAt d pos blk := by
  intro blk
  induction blk with
  | nil => intro d pos _; rfl
  | cons x xs ih =>
    intro d pos h
    rw [writeWrap, writeAt]
    have hlt : pos + 1 ≤ size := by
      simp only [List.length_cons] at h
      omega
    by_cases h1 : pos + 1 = size
    · have hxs : xs = [] := by
        simp only [List.length_cons] at h
        have : xs.length = 0 := by omega
        exact List.eq_nil_of_length_eq_zero this
      rw [if_pos h1, hxs]
      rfl
    · rw [if_neg h1, ih (d.set pos x) (pos + 1)
        (by simp only [List.length_cons] at h; omega)]

theorem readWrap_writeWrap (size : Nat) (blk d : List Nat) (pos : Nat)
    (hpos : pos < size) (hd : d.length = size) (hlen : blk.length ≤ size) :
    readWrap (writeWrap d size pos blk) size pos blk.length = blk := by
  rw [readWrap_eq_map _ size blk.length pos hpos]
  have h1 : ∀ k ∈ List.range blk.length,
      (writeWrap d size pos blk).getD ((pos + k) % size) 0 = blk.getD k 0 :=
    fun k hk => writeWrap_getD_idx size blk d pos k hpos hlen hd (List.mem_range.mp hk)
  rw [List.map_congr_left h1, map_getD_range]

theorem readWrap_writeWrap_disjoint (size : Nat) (blk d : List Nat) (pos q n : Nat)
    (hpos : pos < size) (hq : q < size) (hlen : blk.length ≤ size)
    (hdisj : ∀ k, k < n → ∀ j, j < blk.length → (q + k) % size ≠ (pos + j) % size) :
    readWrap (writeWrap d size pos blk) size q n = readWrap d size q n := by
  rw [readWrap_eq_map _ size n q hq, readWrap_eq_map d size n q hq]
  apply List.map_congr_left
  intro a ha
  exact writeWrap_getD_notin size blk d pos ((q + a) % size) hpos hlen
    (fun j hj => Ne.symm (hdisj a (List.mem_range.mp ha) j hj))

theorem readWrap_take (d : List Nat) (size pos m n : Nat) (hpos : pos < size)
    (hmn : m ≤ n) :
    (readWrap d size pos n).take m = readWrap d size pos m := by
  rw [show n = m + (n - m) from by omega, readWrap_add d size pos m (n - m) hpos,
    List.take_left' (readWrap_length d size m pos)]

theorem readWrap_drop (d : List Nat) (size pos m n : Nat) (hpos : pos < size)
    (hmn : m ≤ n) :
    (readWrap d size pos n).drop m = readWrap d size ((pos + m) % size) (n - m) := by
  rw [show n = m + (n - m) from by omega, readWrap_add d size pos m (n - m) hpos,
    List.drop_left' (readWrap_length d size m pos)]
  congr 1
  omega

theorem input_append_of_writeWrap_tail (b : Buffer) (w : List Nat) (hwf : b.WF)
    (hfit : b.i + b.o + w.length ≤ b.size) :
    readWrap (writeWrap b.data b.size ((b.p + b.i) % b.size) w) b.size b.p (b.i + w.length)
      = inputBytes b ++ w ∧
    readWrap (writeWrap b.data b.size ((b.p + b.i) % b.size) w) b.size
      ((b.p + b.size - b.o) % b.size) b.o = outputBytes b := by
  obtain ⟨hd, hp, hio⟩ := hwf
  have hsz : 0 < b.size := by omega
  have ht : (b.p + b.i) % b.size < b.size := Nat.mod_lt _ hsz
  have hwlen : w.length ≤ b.size := by omega
  constructor
  · rw [readWrap_add _ b.size b.p b.i w.length hp,
      readWrap_writeWrap_disjoint b.size w b.data ((b.p + b.i) % b.size) b.p b.i ht hp hwlen
        (by
          intro k hk j hj heq
          rw [Nat.mod_add_mod, show b.p + b.i + j = b.p + (b.i + j) from by omega] at heq
          have := add_mod_inj b.p (x := k) (y := b.i + j) (by omega) (by omega) heq
          omega),
      readWrap_writeWrap b.size w b.data ((b.p + b.i) % b.size) ht hd hwlen]
    rfl
  · have hq : (b.p + b.size - b.o) % b.size < b.size := Nat.mod_lt _ hsz
    unfold outputBytes
    apply readWrap_writeWrap_disjoint b.size w b.data ((b.p + b.i) % b.size) _ b.o ht hq hwlen
    intro k hk j hj heq
    rw [Nat.mod_add_mod, Nat.mod_add_mod,
      show b.p + b.size - b.o + k = b.p + (b.size - b.o + k) from by omega,
      show b.p + b.i + j = b.p + (b.i + j) from by omega] at heq
    have := add_mod_inj b.p (x := b.size - b.o + k) (y := b.i + j) (by omega) (by omega) heq
    omega

theorem output_append_of_writeWrap_p (b : Buffer) (w : List Nat) (hwf : b.WF)
    (hfit : b.o + w.length ≤ b.size) :
    readWrap (writeWrap b.data b.size b.p w) b.size
      ((b.p + b.size - b.o) % b.size) (b.o + w.length) = outputBytes b ++ w := by
  obtain ⟨hd, hp, hio⟩ := hwf
  have hsz : 0 < b.size := by omega
  have hq : (b.p + b.size - b.o) % b.size < b.size := Nat.mod_lt _ hsz
  have hwlen : w.length ≤ b.size := by omega
  rw [readWrap_add _ b.size _ b.o w.length hq,
    readWrap_writeWrap_disjoint b.size w b.data b.p _ b.o hp hq hwlen
      (by
        intro k hk j hj heq
        rw [Nat.mod_add_mod,
          show b.p + b.size - b.o + k = b.p + (b.size - b.o + k) from by omega] at heq
        have := add_mod_inj b.p (x := b.size - b.o + k) (y := j) (by omega) (by omega) heq
        omega),
    show ((b.p + b.size - b.o) % b.size + b.o) % b.size = b.p from by
      rw [Nat.mod_add_mod, show b.p + b.size - b.o + b.o = b.p + b.size from by omega,
        Nat.add_mod_right, Nat.mod_eq_of_lt hp],
    readWrap_writeWrap b.size w b.data b.p hp hd hwlen]
  rfl

/-- C10: the string-injection primitives are atomic with respect to failure:
whenever bi_istput or bo_istput returns 0 (does not currently fit) or -1
(will never fit) the buffer is completely unchanged, and on success they
return exactly the string's length, having appended exactly those bytes to
the input (resp. output) sequence — wrapping included — while the other
cursors are untouched. -/
theorem claim_C10 (b : Buffer) (ist : List Nat) (hwf : b.WF) :
    ((bi_istput b ist).1 ≤ 0 → (bi_istput b ist).2 = b) ∧
    ((bo_istput b ist).1 ≤ 0 → (bo_istput b ist).2 = b) ∧
    (b.size - b.i - b.o < ist.length →
       bi_istput b ist = (if ist.length < b.size then (0 : Int) else -1, b)) ∧
    (b.size - b.o < ist.length →
       bo_istput b ist = (if ist.length < b.size then (0 : Int) else -1, b)) ∧
    (ist.length ≤ b.size - b.i - b.o →
       (bi_istput b ist).1 = ist.length ∧
       inputBytes (bi_istput b ist).2 = inputBytes b ++ ist ∧
       outputBytes (bi_istput b ist).2 = outputBytes b ∧
       (bi_istput b ist).2.i = b.i + ist.length ∧
       (bi_istput b ist).2.o = b.o ∧
       (bi_istput b ist).2.p = b.p) ∧
    (ist.length ≤ b.size - b.o →
       (bo_istput b ist).1 = ist.length ∧
       outputBytes (bo_istput b ist).2 = outputBytes b ++ ist ∧
       (bo_istput b ist).2.o = b.o + ist.length ∧
       (bo_istput b ist).2.i = b.i) := by
  obtain ⟨hd, hp, hio⟩ := hwf
  have hsz : 0 < b.size := by omega
  refine ⟨?_, ?_, ?_, ?_, ?_, ?_⟩
  · intro hle
    simp only [bi_istput] at hle ⊢
    by_cases hg : b.size - b.i - b.o < ist.length
    · rw [if_pos hg]
    · rw [if_neg hg] at hle ⊢
      have h0 : ist.length = 0 := by
        simp only at hle
        omega
      have hnil : ist = [] := List.eq_nil_of_length_eq_zero h0
      subst hnil
      rfl
  · intro hle
    simp only [bo_istput] at hle ⊢
    by_cases hg : b.size - b.o < ist.length
    · rw [if_pos hg]
    · rw [if_neg hg] at hle ⊢
      have h0 : ist.length = 0 := by
        simp only at hle
        omega
      have hnil : ist = [] := List.eq_nil_of_length_eq_zero h0
      subst hnil
      simp [bptr, writeWrap]
  · intro hg
    simp only [bi_istput]
    rw [if_pos hg]
  · intro hg
    simp only [bo_istput]
    rw [if_pos hg]
  · intro hfit
    have hg : ¬b.size - b.i - b.o < ist.length := by omega
    have htail : bptr b.size b.p b.i = (b.p + b.i) % b.size :=
      bptr_eq_mod _ _ _ hp (by omega)
    have happ := input_append_of_writeWrap_tail b ist ⟨hd, hp, hio⟩ (by omega)
    simp only [bi_istput]
    rw [if_neg hg]
    refine ⟨rfl, ?_, ?_, rfl, rfl, rfl⟩
    · show readWrap (writeWrap b.data b.size (bptr b.size b.p b.i) ist) b.size b.p
        (b.i + ist.length) = _
      rw [htail]
      exact happ.1
    · show readWrap (writeWrap b.data b.size (bptr b.size b.p b.i) ist) b.size
        ((b.p + b.size - b.o) % b.size) b.o = _
      rw [htail]
      exact happ.2
  · intro hfit
    have hg : ¬b.size - b.o < ist.length := by omega
    have happ := output_append_of_writeWrap_p b ist ⟨hd, hp, hio⟩ (by omega)
    simp only [bo_istput]
    rw [if_neg hg]
    refine ⟨rfl, ?_, rfl, rfl⟩
    show readWrap (writeWrap b.data b.size b.p ist) b.size
        ((bptr b.size b.p ist.length + b.size - (b.o + ist.length)) % b.size)
        (b.o + ist.length) = _
    have hb : bptr b.size b.p ist.length = (b.p + ist.length) % b.size :=
      bptr_eq_mod _ _ _ hp (by omega)
    have hstart : ((b.p + ist.length) % b.size + b.size - (b.o + ist.length)) % b.size
        = (b.p + b.size - b.o) % b.size := by
      rw [show (b.p + ist.length) % b.size + b.size - (b.o + ist.length)
          = (b.p + ist.length) % b.size + (b.size - (b.o + ist.length)) from by
            have := Nat.mod_le (b.p + ist.length) b.size
            omega,
        Nat.mod_add_mod,
        show b.p + ist.length + (b.size - (b.o + ist.length)) = b.p + b.size - b.o from by
          omega]
    rw [hb, hstart]
    exact happ

theorem claim_C10_witness :
    inputBytes (bi_istput ⟨4, 3, 1, 1, [7, 7, 7, 7]⟩ [5, 6]).2 =
      inputBytes ⟨4, 3, 1, 1, [7, 7, 7, 7]⟩ ++ [5, 6] :=
  ((claim_C10 ⟨4, 3, 1, 1, [7, 7, 7, 7]⟩ [5, 6]
      ⟨rfl, by decide, by decide⟩).2.2.2.2.1 (by decide)).2.1

theorem isteqLoop_iff (size : Nat) :
    ∀ (ist d : List Nat) (pos : Nat), pos < size →
      (isteqLoop d size pos ist = true ↔ readWrap d size pos ist.length = ist) := by
  intro ist
  induction ist with
  | nil =>
    intro d pos h
    simp [isteqLoop, readWrap]
  | cons x xs ih =>
    intro d pos h
    have hsz : 0 < size := by omega
    simp only [isteqLoop, List.length_cons, readWrap]
    by_cases hx : d.getD pos 0 = x
    · rw [if_neg (fun hne => hne hx),
        ih d (if pos + 1 = size then 0 else pos + 1)
          (by rw [wrapNext_eq_mod size pos h]; exact Nat.mod_lt _ hsz)]
      constructor
      · intro hrest
        rw [hrest, hx]
      · intro hcons
        rw [List.cons.injEq] at hcons
        exact hcons.2
    · rw [if_pos hx]
      simp only [List.cons.injEq]
      constructor
      · intro hfalse
        exact absurd hfalse (by simp)
      · intro hcons
        exact absurd hcons.1 hx

/-- C8: on the pending input, b_isteq returns 0 when fewer bytes are pending
than the needle's length, the needle's length exactly when the needle is a
prefix of the logical (wrap-crossing) input sequence, and -1 when it is not;
bi_eat consumes exactly the matched bytes on a positive result and leaves the
buffer untouched on a zero or negative one. -/
theorem claim_C8 (b : Buffer) (ist : List Nat) (hwf : b.WF) :
    (b.i < ist.length → b_isteq b 0 b.i ist = 0 ∧ bi_eat b ist = (0, b)) ∧
    (ist.length ≤ b.i →
       (b_isteq b 0 b.i ist = ist.length ↔ (inputBytes b).take ist.length = ist)) ∧
    (ist.length ≤ b.i → (inputBytes b).take ist.length ≠ ist →
       b_isteq b 0 b.i ist = -1) ∧
    (b_isteq b 0 b.i ist ≤ 0 → bi_eat b ist = (b_isteq b 0 b.i ist, b)) ∧
    (0 < b_isteq b 0 b.i ist →
       bi_eat b ist = ((ist.length : Int), b_del b ist.length) ∧
       inputBytes (b_del b ist.length) = (inputBytes b).drop ist.length ∧
       (b_del b ist.length).i = b.i - ist.length ∧
       (b_del b ist.length).o = b.o ∧
       (b_del b ist.length).data = b.data) := by
  obtain ⟨hd, hp, hio⟩ := hwf
  have hsz : 0 < b.size := by omega
  have hpos0 : bptr b.size b.p 0 = b.p := by simp [bptr]
  have hiff := isteqLoop_iff b.size ist b.data b.p hp
  have htake : ∀ hle : ist.length ≤ b.i,
      (inputBytes b).take ist.length = readWrap b.data b.size b.p ist.length := by
    intro hle
    unfold inputBytes
    exact readWrap_take b.data b.size b.p ist.length b.i hp hle
  refine ⟨?_, ?_, ?_, ?_, ?_⟩
  · intro hlt
    have h1 : b_isteq b 0 b.i ist = 0 := by
      simp only [b_isteq]
      rw [if_pos hlt]
    refine ⟨h1, ?_⟩
    simp only [bi_eat, h1]
    rw [if_neg (by omega : ¬(0 : Int) < 0)]
  · intro hle
    rw [htake hle]
    simp only [b_isteq, if_neg (by omega : ¬b.i < ist.length), hpos0]
    by_cases hm : isteqLoop b.data b.size b.p ist = true
    · rw [if_pos hm]
      simp only [eq_self_iff_true, true_iff]
      exact hiff.mp hm
    · rw [if_neg hm]
      constructor
      · intro habs
        exact absurd habs (by omega)
      · intro hread
        exact absurd (hiff.mpr hread) hm
  · intro hle hne
    simp only [b_isteq, if_neg (by omega : ¬b.i < ist.length), hpos0]
    rw [if_neg (fun hm => hne (by rw [htake hle]; exact hiff.mp hm))]
  · intro hle
    simp only [bi_eat]
    rw [if_neg (by omega)]
  · intro hgt
    have hle : ist.length ≤ b.i := by
      by_contra hlt
      have : b_isteq b 0 b.i ist = 0 := by
        simp only [b_isteq]
        rw [if_pos (by omega)]
      omega
    have hm : isteqLoop b.data b.size b.p ist = true := by
      by_contra hm
      have : b_isteq b 0 b.i ist = -1 := by
        simp only [b_isteq, if_neg (by omega : ¬b.i < ist.length), hpos0]
        rw [if_neg hm]
      omega
    have hret : b_isteq b 0 b.i ist = ist.length := by
      simp only [b_isteq, if_neg (by omega : ¬b.i < ist.length), hpos0]
      rw [if_pos hm]
    have hbdel : bi_eat b ist = ((ist.length : Int), b_del b ist.length) := by
      have hgt2 : (0 : Int) < (ist.length : Int) := hret ▸ hgt
      simp only [bi_eat, hret]
      rw [if_pos hgt2]
      simp
    refine ⟨hbdel, ?_, rfl, rfl, rfl⟩
    show readWrap b.data b.size (bptr b.size b.p ist.length) (b.i - ist.length) = _
    rw [bptr_eq_mod b.size b.p ist.length hp (by omega),
      ← readWrap_drop b.data b.size b.p ist.length b.i hp hle]
    rfl

theorem claim_C8_witness :
    bi_eat ⟨4, 3, 2, 0, [8, 9, 9, 7]⟩ [7, 8] =
      ((2 : Int), b_del ⟨4, 3, 2, 0, [8, 9, 9, 7]⟩ 2) :=
  ((claim_C8 ⟨4, 3, 2, 0, [8, 9, 9, 7]⟩ [7, 8]
      ⟨rfl, by decide, by decide⟩).2.2.2.2 (by decide)).1

theorem bi_putblk_spec (b : Buffer) (blk : List Nat) :
    (bi_putblk b blk).1 = min (b.size - (b.i + b.o)) blk.length ∧
    (bi_putblk b blk).2.i = b.i + (bi_putblk b blk).1 ∧
    (bi_putblk b blk).2.o = b.o ∧
    (bi_putblk b blk).2.p = b.p ∧
    (bi_putblk b blk).2.size = b.size ∧
    (min (b.size - (b.i + b.o)) blk.length = 0 → bi_putblk b blk = (0, b)) := by
  have hlen : (if b.size - buffer_len b < blk.length then b.size - buffer_len b
      else blk.length) = min (b.size - (b.i + b.o)) blk.length := by
    unfold buffer_len
    split <;> omega
  by_cases h0 : min (b.size - (b.i + b.o)) blk.length = 0
  · have hz : bi_putblk b blk = (0, b) := by
      simp only [bi_putblk]
      rw [hlen, if_pos h0]
    rw [hz]
    exact ⟨h0.symm, rfl, rfl, rfl, rfl, fun _ => rfl⟩
  · simp only [bi_putblk]
    rw [hlen, if_neg h0]
    exact ⟨rfl, rfl, rfl, rfl, rfl, fun h => absurd h h0⟩

theorem bo_putblk_spec (b : Buffer) (blk : List Nat) :
    (bo_putblk b blk).1 = min (b.size - (b.i + b.o)) blk.length ∧
    (bo_putblk b blk).2.o = b.o + (bo_putblk b blk).1 ∧
    (bo_putblk b blk).2.i = b.i ∧
    (bo_putblk b blk).2.size = b.size ∧
    (min (b.size - (b.i + b.o)) blk.length = 0 → bo_putblk b blk = (0, b)) := by
  have hlen : (if b.size - buffer_len b < blk.length then b.size - buffer_len b
      else blk.length) = min (b.size - (b.i + b.o)) blk.length := by
    unfold buffer_len
    split <;> omega
  by_cases h0 : min (b.size - (b.i + b.o)) blk.length = 0
  · have hz : bo_putblk b blk = (0, b) := by
      simp only [bo_putblk]
      rw [hlen, if_pos h0]
    rw [hz]
    exact ⟨h0.symm, rfl, rfl, rfl, fun _ => rfl⟩
  · simp only [bo_putblk]
    rw [hlen, if_neg h0]
    by_cases hs : min (b_contig_space b) (min (b.size - (b.i + b.o)) blk.length) <
        min (b.size - (b.i + b.o)) blk.length
    · rw [if_pos hs]
      exact ⟨rfl, rfl, rfl, rfl, fun h => absurd h h0⟩
    · rw [if_neg hs]
      exact ⟨rfl, rfl, rfl, rfl, fun h => absurd h h0⟩

theorem bi_putblk_data (b : Buffer) (blk : List Nat) (hwf : b.WF)
    (hn0 : min (b.size - (b.i + b.o)) blk.length ≠ 0) :
    (bi_putblk b blk).2.data =
      writeWrap b.data b.size (b_tail b)
        (blk.take (min (b.size - (b.i + b.o)) blk.length)) := by
  obtain ⟨hd, hp, hio⟩ := hwf
  have hsz : 0 < b.size := by omega
  set L := min (b.size - (b.i + b.o)) blk.length with hL
  have hLfree : L ≤ b.size - b.i - b.o := by omega
  have hLblk : L ≤ blk.length := by omega
  have htlt : b_tail b < b.size := by
    unfold b_tail bptr
    split <;> omega
  have hcontig_le : b_contig_space b ≤ b.size - b_tail b := by
    unfold b_contig_space
    omega
  have hlen : (if b.size - buffer_len b < blk.length then b.size - buffer_len b
      else blk.length) = L := by
    unfold buffer_len
    rw [hL]
    split <;> omega
  simp only [bi_putblk]
  rw [hlen, if_neg hn0]
  by_cases hs : min (b_contig_space b) L < L
  · have hc2 : b_contig_space b = b.size - b_tail b := by
      have hfree : b.size - b.i - b.o - b_contig_space b = 0 ∨
          b_contig_space b = min (b.size - b.i - b.o) (b.size - b_tail b) := Or.inr rfl
      unfold b_contig_space
      unfold b_contig_space at hs
      omega
    have hhalf : min (b_contig_space b) L = b.size - b_tail b := by omega
    have hpi : b.p + b.i < b.size := by
      by_contra hge
      push_neg at hge
      have hi0 : 0 < b.i := by omega
      have ht2 : b_tail b = b.p + b.i - b.size := by
        unfold b_tail bptr
        rw [if_pos ⟨hi0, hge⟩]
      omega
    have ht3 : b_tail b = b.p + b.i := by
      unfold b_tail bptr
      rw [if_neg (by omega)]
    have hpos2 : bptr b.size b.p (b.i + min (b_contig_space b) L) = 0 := by
      rw [hhalf, ht3]
      unfold bptr
      rw [if_pos ⟨by omega, by omega⟩]
      omega
    have hAlen : (blk.take (b.size - b_tail b)).length = b.size - b_tail b := by
      rw [List.length_take]
      omega
    have hsplitw : writeWrap b.data b.size (b_tail b) (blk.take L) =
        writeAt (writeAt b.data (b_tail b) (blk.take (b.size - b_tail b))) 0
          ((blk.drop (b.size - b_tail b)).take (L - (b.size - b_tail b))) := by
      have h1 : blk.take L = blk.take (b.size - b_tail b) ++
          (blk.drop (b.size - b_tail b)).take (L - (b.size - b_tail b)) := by
        conv_lhs => rw [← List.take_append_drop (b.size - b_tail b) (blk.take L)]
        rw [List.take_take, List.drop_take, min_eq_left (by omega)]
      rw [h1, writeWrap_append b.size _ _ b.data (b_tail b) htlt, hAlen,
        show (b_tail b + (b.size - b_tail b)) % b.size = 0 from by
          rw [show b_tail b + (b.size - b_tail b) = b.size from by omega, Nat.mod_self],
        writeWrap_eq_writeAt b.size (blk.take (b.size - b_tail b)) b.data (b_tail b)
          (by rw [hAlen]; omega),
        writeWrap_eq_writeAt b.size _ _ 0
          (by
            rw [Nat.zero_add, List.length_take, List.length_drop]
            omega)]
    rw [if_pos hs, hpos2, hhalf, hsplitw]
  · rw [if_neg hs]
    have hhalf : min (b_contig_space b) L = L := by omega
    have hfit : b_tail b + L ≤ b.size := by omega
    rw [hhalf, writeWrap_eq_writeAt b.size (blk.take L) b.data (b_tail b)
      (by rw [List.length_take]; omega)]

/-- C2: writing a block of N bytes into a buffer with exactly K < N bytes
free copies exactly K bytes (the input grows by K and carries exactly the
first K bytes of the block, wrapped correctly), returns K, and leaves the
buffer consistent (i + o never exceeds the capacity); with zero free space
(including the capacity-0 sentinel) both put primitives return 0 without
writing anything, and neither has an error return for capacity exhaustion. -/
theorem claim_C2 (b : Buffer) (blk : List Nat)
    (hwf : b.data.length = b.size ∧ b.i + b.o ≤ b.size ∧ (b.size = 0 ∨ b.p < b.size))
    (hN : b.size - b.i - b.o < blk.length) :
    (bi_putblk b blk).1 = b.size - b.i - b.o ∧
    (bi_putblk b blk).2.i + (bi_putblk b blk).2.o ≤ b.size ∧
    (bi_putblk b blk).2.i = b.i + (b.size - b.i - b.o) ∧
    inputBytes (bi_putblk b blk).2 = inputBytes b ++ blk.take (b.size - b.i - b.o) ∧
    outputBytes (bi_putblk b blk).2 = outputBytes b ∧
    (bo_putblk b blk).1 = b.size - b.i - b.o ∧
    (bo_putblk b blk).2.i + (bo_putblk b blk).2.o ≤ b.size ∧
    (bo_putblk b blk).2.o = b.o + (b.size - b.i - b.o) ∧
    (b.size - b.i - b.o = 0 → bi_putblk b blk = (0, b) ∧ bo_putblk b blk = (0, b)) ∧
    (b.size = 0 → bi_putblk b blk = (0, b) ∧ bo_putblk b blk = (0, b)) := by
  obtain ⟨hd, hio, hps⟩ := hwf
  have hmin : min (b.size - (b.i + b.o)) blk.length = b.size - b.i - b.o := by omega
  have hbi := bi_putblk_spec b blk
  have hbo := bo_putblk_spec b blk
  by_cases hK0 : b.size - b.i - b.o = 0
  · have hz1 : bi_putblk b blk = (0, b) := hbi.2.2.2.2.2 (by omega)
    have hz2 : bo_putblk b blk = (0, b) := hbo.2.2.2.2 (by omega)
    rw [hz1, hz2]
    dsimp only
    refine ⟨by omega, by omega, by omega, ?_, rfl, by omega, by omega, by omega,
      fun _ => ⟨rfl, rfl⟩, fun _ => ⟨rfl, rfl⟩⟩
    rw [hK0]
    simp
  · have hK := hK0
    have hsz0 : b.size ≠ 0 := by omega
    have hp : b.p < b.size := by
      rcases hps with h0 | h0 <;> omega
    have hwl : (blk.take (b.size - b.i - b.o)).length = b.size - b.i - b.o := by
      rw [List.length_take]
      omega
    have htail : b_tail b = (b.p + b.i) % b.size :=
      bptr_eq_mod _ _ _ hp (by omega)
    have happ := input_append_of_writeWrap_tail b (blk.take (b.size - b.i - b.o))
      ⟨hd, hp, hio⟩ (by rw [hwl]; omega)
    have hdata := bi_putblk_data b blk ⟨hd, hp, hio⟩ (by omega)
    refine ⟨by omega, by omega, by omega, ?_, ?_, by omega, by omega, by omega,
      fun h => absurd h hK0, fun h => absurd h hsz0⟩
    · show readWrap (bi_putblk b blk).2.data (bi_putblk b blk).2.size
        (bi_putblk b blk).2.p (bi_putblk b blk).2.i = _
      rw [hdata, hbi.2.2.2.2.1, hbi.2.2.2.1, hbi.2.1, hbi.1, hmin, htail]
      rw [hwl] at happ
      exact happ.1
    · show readWrap (bi_putblk b blk).2.data (bi_putblk b blk).2.size
        (((bi_putblk b blk).2.p + (bi_putblk b blk).2.size - (bi_putblk b blk).2.o) %
          (bi_putblk b blk).2.size) (bi_putblk b blk).2.o = _
      rw [hdata, hbi.2.2.2.2.1, hbi.2.2.2.1, hbi.2.2.1, hmin, htail]
      exact happ.2

theorem claim_C2_witness :
    (bi_putblk ⟨4, 3, 1, 1, [8, 9, 9, 7]⟩ [5, 6, 5]).1 = 2 ∧
    inputBytes (bi_putblk ⟨4, 3, 1, 1, [8, 9, 9, 7]⟩ [5, 6, 5]).2 =
      inputBytes ⟨4, 3, 1, 1, [8, 9, 9, 7]⟩ ++ [5, 6] ∧
    (bo_putblk ⟨4, 3, 1, 1, [8, 9, 9, 7]⟩ [5, 6, 5]).1 = 2 ∧
    bi_putblk ⟨0, 0, 0, 0, []⟩ [1] = (0, ⟨0, 0, 0, 0, []⟩) ∧
    bo_putblk ⟨0, 0, 0, 0, []⟩ [1] = (0, ⟨0, 0, 0, 0, []⟩) := by
  have h := claim_C2 ⟨4, 3, 1, 1, [8, 9, 9, 7]⟩ [5, 6, 5]
    ⟨rfl, by decide, Or.inr (by decide)⟩ (by decide)
  have hsent := claim_C2 ⟨0, 0, 0, 0, []⟩ [1] ⟨rfl, by decide, Or.inl rfl⟩ (by decide)
  have h0 := hsent.2.2.2.2.2.2.2.2.2 rfl
  refine ⟨h.1, ?_, h.2.2.2.2.2.1, h0.1, h0.2⟩
  have h2 := h.2.2.2.1
  rwa [show List.take (4 - 1 - 1) [5, 6, 5] = [5, 6] from by decide] at h2

theorem claim_C7_witness :
    (se_fl_set_error ⟨SE_FL_EOS⟩).flags.testBit 9 = true :=
  ((claim_C7 ⟨SE_FL_EOS⟩).2.1 (Or.inl (by decide))).1
